import Mathlib

/-!
Verification of the Black-Scholes option pricing and PnL tool (`src/app.py`).

The computational core of the program consists of:
* `ranges` — `np.linspace(x - 4, x + 4, 9).astype(int)`, the axis generator;
* `BlackScholes` — the Black-Scholes pricer (call/put, rounded to cents);
* `calculate_payoff` — entry/exit PnL with the 100-share contract multiplier;
* the grid construction `df` / `heatmap_data` that tabulates PnL over the
  cross product of a spot range and a strike range.

The embedding works over the real numbers.  `scipy.stats.norm.cdf (x, 0, 1)`
is modelled as the integral of the standard normal density; Python's built-in
`round` (round half to even on the exact value) is modelled by `pyRound`.
Python float representation error is out of scope of this model.
-/

open MeasureTheory Set

namespace OptionPricing

/-- Python built-in `round` to the nearest integer, ties to even
(banker's rounding), on an exact real argument.  Away from ties it agrees
with rounding to the nearest integer (`round`). -/
noncomputable def pyRound (x : ℝ) : ℤ :=
  if x - ⌊x⌋ = 1 / 2 then (if Even ⌊x⌋ then ⌊x⌋ else ⌊x⌋ + 1) else round x

/-- Python `round (x, 2)`: rounding to 2 decimal places, ties to even. -/
noncomputable def round2 (x : ℝ) : ℝ := (pyRound (x * 100) : ℝ) / 100

/-- Density of the standard normal distribution. -/
noncomputable def normPdf (x : ℝ) : ℝ :=
  (Real.sqrt (2 * Real.pi))⁻¹ * Real.exp (-(x ^ 2) / 2)

/-- Cumulative distribution function of the standard normal distribution,
modelling `scipy.stats.norm.cdf (x, 0, 1)`. -/
noncomputable def normCdf (x : ℝ) : ℝ := ∫ t in Iic x, normPdf t

/-- The intermediate `d1` computed by `BlackScholes` in `src/app.py`:
`(np.log (S/K) + (r + (v**2)/2)*t) / (v*(t)**0.5)`. -/
noncomputable def d1 (S K r t v : ℝ) : ℝ :=
  (Real.log (S / K) + (r + v ^ 2 / 2) * t) / (v * Real.sqrt t)

/-- The intermediate `d2 = d1 - (v*(t)**0.5)` computed by `BlackScholes`. -/
noncomputable def d2 (S K r t v : ℝ) : ℝ :=
  d1 S K r t v - v * Real.sqrt t

/-- The unrounded call-price expression of `src/app.py` line 71:
`norm.cdf(d1, 0, 1)*S - norm.cdf(d2, 0, 1)*K*np.exp(-r*t)`. -/
noncomputable def callPriceRaw (S K r t v : ℝ) : ℝ :=
  normCdf (d1 S K r t v) * S - normCdf (d2 S K r t v) * K * Real.exp (-r * t)

/-- The unrounded put-price expression of `src/app.py` line 74:
`norm.cdf(-d2, 0, 1)*K*np.exp(-r*t) - norm.cdf(-d1, 0, 1)*S`. -/
noncomputable def putPriceRaw (S K r t v : ℝ) : ℝ :=
  normCdf (-d2 S K r t v) * K * Real.exp (-r * t) - normCdf (-d1 S K r t v) * S

/-- The pricer of `src/app.py` (lines 64-77).  The `type` argument is the
string the Python function receives.  For `"Call"` and `"Put"` the function
returns the rounded Black-Scholes price.  For any other string the local
variable `Price` is never assigned, `return Price` raises
`UnboundLocalError`, the bare `except` swallows it and prints a message, and
the function falls through to an implicit `None` — modelled as `none`. -/
noncomputable def BlackScholes (S K r t v : ℝ) (type : String) : Option ℝ :=
  if type = "Call" then
    some (round2 (callPriceRaw S K r t v))
  else if type = "Put" then
    some (round2 (putPriceRaw S K r t v))
  else
    none

/-- The payoff engine of `src/app.py` (lines 80-87).  It evaluates the pricer
on the T0 (entry) and T1 (exit) snapshots and returns
`round((exit - entry) * 100, 2)` for a `"Long"` position and
`round((entry - exit) * 100, 2)` otherwise.  If either pricer call returned
`None`, the subtraction raises an uncaught `TypeError`: no value is produced,
modelled as `none` (the function contains no `try`). -/
noncomputable def calculate_payoff (S1 K r1 t1 v1 S2 r2 t2 v2 : ℝ)
    (option position : String) : Option ℝ :=
  match BlackScholes S1 K r1 t1 v1 option, BlackScholes S2 K r2 t2 v2 option with
  | some entry, some exit2 =>
      some (if position = "Long" then round2 ((exit2 - entry) * 100)
            else round2 ((entry - exit2) * 100))
  | _, _ => none

/-- The range generator of `src/app.py` (lines 57-61):
`np.linspace(x - 4, x + 4, 9).astype(int)` as a `pd.Series`.  For an integer
anchor `x`, `linspace` produces the nine equally spaced values
`x - 4 + i` (step `(8 : ℝ) / 8 = 1`), all exact integers, and `astype(int)`
is the identity on them. -/
def ranges (x : ℤ) : List ℤ :=
  (List.range 9).map (fun (i : ℕ) => x - 4 + (i : ℤ))

/-- The flat `df` of `src/app.py` (lines 94-97): the list
`[(spot, strike) for spot in spot_range for strike in strike_range]` with
`spot_range = ranges S2` and `strike_range = ranges K`. -/
def df (S2anchor Kanchor : ℤ) : List (ℤ × ℤ) :=
  (ranges S2anchor).flatMap (fun spot => (ranges Kanchor).map (fun strike => (spot, strike)))

/-- The `P&L` column of `src/app.py` (line 100): each `(spot, strike)` row of
`df` is extended with
`calculate_payoff (S1, strike, r1, t1, v1, spot, r2, t2, v2, type, position)`,
i.e. `strike` is substituted for `K` and `spot` for the exit spot `S2`. -/
noncomputable def dfPnL (S1 : ℝ) (Kanchor : ℤ) (r1 t1 v1 : ℝ) (S2anchor : ℤ)
    (r2 t2 v2 : ℝ) (type position : String) : List (ℤ × ℤ × Option ℝ) :=
  (df S2anchor Kanchor).map (fun cell =>
    (cell.1, cell.2,
      calculate_payoff S1 (cell.2 : ℝ) r1 t1 v1 (cell.1 : ℝ) r2 t2 v2 type position))

/-- Spec-side `d1` (spec section 4.1), written from the spec's words:
`d1 = (ln(S/K) + (r + v^2/2)*t) / (v*sqrt(t))`. -/
noncomputable def specD1 (S K r t v : ℝ) : ℝ :=
  (Real.log (S / K) + (r + v ^ 2 / 2) * t) / (v * Real.sqrt t)

/-- Spec-side `d2 = d1 - v*sqrt(t)` (spec section 4.1). -/
noncomputable def specD2 (S K r t v : ℝ) : ℝ :=
  specD1 S K r t v - v * Real.sqrt t

/-- Spec-side call price (spec section 4.1):
`Phi(d1)*S - Phi(d2)*K*e^(-r*t)`, rounded to 2 decimal places. -/
noncomputable def specCallPrice (S K r t v : ℝ) : ℝ :=
  round2 (normCdf (specD1 S K r t v) * S -
    normCdf (specD2 S K r t v) * K * Real.exp (-(r * t)))

/-- Spec-side put price (spec section 4.1):
`Phi(-d2)*K*e^(-r*t) - Phi(-d1)*S`, rounded to 2 decimal places. -/
noncomputable def specPutPrice (S K r t v : ℝ) : ℝ :=
  round2 (normCdf (-specD2 S K r t v) * K * Real.exp (-(r * t)) -
    normCdf (-specD1 S K r t v) * S)

/-! ### Properties of Python rounding -/

lemma pyRound_le (x : ℝ) : (pyRound x : ℝ) ≤ x + 1 / 2 := by
  unfold pyRound
  split_ifs with h h2
  · have := Int.floor_le x
    linarith
  · push_cast
    linarith
  · rw [round_eq]
    have := Int.floor_le (x + 1 / 2)
    linarith

lemma le_pyRound (x : ℝ) : x - 1 / 2 ≤ (pyRound x : ℝ) := by
  unfold pyRound
  split_ifs with h h2
  · linarith
  · push_cast
    linarith
  · have := abs_sub_round x
    rw [abs_le] at this
    linarith [this.1]

lemma abs_sub_pyRound (x : ℝ) : |x - (pyRound x : ℝ)| ≤ 1 / 2 := by
  rw [abs_le]
  constructor
  · linarith [pyRound_le x]
  · linarith [le_pyRound x]

lemma pyRound_mono : Monotone pyRound := by
  intro x y hxy
  by_contra hcon
  push_neg at hcon
  have h1 : (pyRound y : ℝ) + 1 ≤ (pyRound x : ℝ) := by
    exact_mod_cast Int.add_one_le_of_lt hcon
  have h2 := pyRound_le x
  have h3 := le_pyRound y
  have hxe : x = y := le_antisymm hxy (by linarith)
  rw [hxe] at hcon
  exact lt_irrefl _ hcon

lemma round_neg_of_ne_half (x : ℝ) (h : x - ⌊x⌋ ≠ 1 / 2) :
    round (-x) = -round x := by
  by_cases hint : x = (⌊x⌋ : ℝ)
  · have hx : x = ((⌊x⌋ : ℤ) : ℝ) := hint
    rw [hx, ← Int.cast_neg, round_intCast, round_intCast]
  · have hlt : (⌊x⌋ : ℝ) < x := lt_of_le_of_ne (Int.floor_le x) (fun he => hint he.symm)
    have hub : x < (⌊x⌋ : ℝ) + 1 := Int.lt_floor_add_one x
    rcases lt_or_gt_of_ne h with hlo | hhi
    · -- fractional part below 1/2
      have e1 : round x = ⌊x⌋ := by
        rw [round_eq]
        apply Int.floor_eq_iff.mpr
        constructor
        · linarith
        · linarith
      have e2 : round (-x) = -⌊x⌋ := by
        rw [round_eq]
        apply Int.floor_eq_iff.mpr
        constructor
        · push_cast; linarith
        · push_cast; linarith
      rw [e1, e2]
    · -- fractional part above 1/2
      have e1 : round x = ⌊x⌋ + 1 := by
        rw [round_eq]
        apply Int.floor_eq_iff.mpr
        constructor
        · push_cast; linarith
        · push_cast; linarith
      have e2 : round (-x) = -(⌊x⌋ + 1) := by
        rw [round_eq]
        apply Int.floor_eq_iff.mpr
        constructor
        · push_cast; linarith
        · push_cast; linarith
      rw [e1, e2]

lemma pyRound_neg (x : ℝ) : pyRound (-x) = -pyRound x := by
  by_cases h : x - ⌊x⌋ = 1 / 2
  · have hfl : (⌊x⌋ : ℝ) = x - 1 / 2 := by linarith
    have hneg : ⌊-x⌋ = -⌊x⌋ - 1 := by
      apply Int.floor_eq_iff.mpr
      constructor
      · push_cast; linarith
      · push_cast; linarith
    have htie : -x - ⌊-x⌋ = 1 / 2 := by
      rw [hneg]; push_cast; linarith
    unfold pyRound
    rw [if_pos h, if_pos htie, hneg]
    have hpar : Even (-⌊x⌋ - 1) ↔ ¬ Even ⌊x⌋ := by
      constructor
      · intro he hx
        rcases he with ⟨a, ha⟩
        rcases hx with ⟨b, hb⟩
        omega
      · intro ho
        rcases Int.even_or_odd ⌊x⌋ with he | ⟨b, hb⟩
        · exact absurd he ho
        · exact ⟨-b - 1, by omega⟩
    by_cases hev : Even ⌊x⌋
    · rw [if_pos hev, if_neg (fun hc => (hpar.mp hc) hev)]
      omega
    · rw [if_neg hev, if_pos (hpar.mpr hev)]
      omega
  · have hneq : -x - ⌊-x⌋ ≠ 1 / 2 := by
      by_cases hint : x = (⌊x⌋ : ℝ)
      · have h0 : ⌊-x⌋ = -⌊x⌋ := by
          conv_lhs => rw [hint, ← Int.cast_neg, Int.floor_intCast]
        rw [h0, hint]
        push_cast
        intro hc
        norm_num at hc
      · have hlt : (⌊x⌋ : ℝ) < x := lt_of_le_of_ne (Int.floor_le x) (fun he => hint he.symm)
        have hub : x < (⌊x⌋ : ℝ) + 1 := Int.lt_floor_add_one x
        have hneg : ⌊-x⌋ = -⌊x⌋ - 1 := by
          apply Int.floor_eq_iff.mpr
          constructor
          · push_cast; linarith
          · push_cast; linarith
        rw [hneg]
        push_cast
        intro hc
        apply h
        linarith
    unfold pyRound
    rw [if_neg h, if_neg hneq]
    exact round_neg_of_ne_half x h

/-! ### Properties of `round2` -/

lemma round2_mono {x y : ℝ} (h : x ≤ y) : round2 x ≤ round2 y := by
  unfold round2
  have : (pyRound (x * 100) : ℝ) ≤ (pyRound (y * 100) : ℝ) := by
    exact_mod_cast pyRound_mono (by linarith : x * 100 ≤ y * 100)
  linarith

lemma round2_neg (x : ℝ) : round2 (-x) = -round2 x := by
  unfold round2
  rw [show -x * 100 = -(x * 100) by ring, pyRound_neg]
  push_cast
  ring

lemma abs_round2_sub (x : ℝ) : |round2 x - x| ≤ 1 / 200 := by
  unfold round2
  have h := abs_sub_pyRound (x * 100)
  rw [abs_le] at h ⊢
  constructor
  · linarith [h.2]
  · linarith [h.1]

/-! ### Properties of the standard normal distribution -/

lemma normPdf_nonneg (x : ℝ) : 0 ≤ normPdf x :=
  mul_nonneg (inv_nonneg.mpr (Real.sqrt_nonneg _)) (Real.exp_pos _).le

lemma normPdf_even (x : ℝ) : normPdf (-x) = normPdf x := by
  unfold normPdf
  congr 1
  ring_nf

lemma normPdf_eq_gauss :
    normPdf = fun x => (Real.sqrt (2 * Real.pi))⁻¹ * Real.exp (-(1 / 2) * x ^ 2) := by
  funext x
  unfold normPdf
  congr 1
  ring_nf

lemma integrable_normPdf : Integrable normPdf := by
  rw [normPdf_eq_gauss]
  exact (integrable_exp_neg_mul_sq (by norm_num : (0 : ℝ) < 1 / 2)).const_mul _

lemma integral_normPdf : ∫ x, normPdf x = 1 := by
  rw [normPdf_eq_gauss]
  rw [MeasureTheory.integral_mul_left, integral_gaussian]
  rw [show Real.pi / (1 / 2) = 2 * Real.pi by ring]
  exact inv_mul_cancel₀ (ne_of_gt (Real.sqrt_pos.mpr (by positivity)))

lemma normCdf_nonneg (x : ℝ) : 0 ≤ normCdf x :=
  setIntegral_nonneg measurableSet_Iic (fun t _ => normPdf_nonneg t)

lemma normCdf_neg (x : ℝ) : normCdf (-x) = 1 - normCdf x := by
  have h1 : normCdf (-x) = ∫ t in Ioi x, normPdf t := by
    unfold normCdf
    calc ∫ t in Iic (-x), normPdf t = ∫ t in Iic (-x), normPdf (-t) := by
          simp_rw [normPdf_even]
      _ = ∫ t in Ioi (-(-x)), normPdf t := integral_comp_neg_Iic (-x) normPdf
      _ = ∫ t in Ioi x, normPdf t := by rw [neg_neg]
  have h2 : normCdf x + ∫ t in Ioi x, normPdf t = 1 := by
    unfold normCdf
    rw [intervalIntegral.integral_Iic_add_Ioi integrable_normPdf.integrableOn
      integrable_normPdf.integrableOn, integral_normPdf]
  linarith

lemma continuous_normPdf : Continuous normPdf := by
  unfold normPdf
  fun_prop

lemma normCdf_hasDerivAt (x : ℝ) : HasDerivAt normCdf (normPdf x) x := by
  have hfun : normCdf = fun u => normCdf 0 + ∫ t in (0 : ℝ)..u, normPdf t := by
    funext u
    rw [← intervalIntegral.integral_Iic_sub_Iic integrable_normPdf.integrableOn
      integrable_normPdf.integrableOn]
    unfold normCdf
    ring
  rw [hfun]
  exact (intervalIntegral.integral_hasDerivAt_right
    integrable_normPdf.intervalIntegrable
    (continuous_normPdf.stronglyMeasurableAtFilter _ _)
    continuous_normPdf.continuousAt).const_add (normCdf 0)

/-- The key Black-Scholes identity `K * e^(-r*t) * pdf(d2) = S * pdf(d1)`,
behind all the greek-sign computations. -/
lemma bs_identity (S K r t v : ℝ) (hS : 0 < S) (hK : 0 < K) (ht : 0 < t) (hv : 0 < v) :
    K * Real.exp (-r * t) * normPdf (d2 S K r t v) = S * normPdf (d1 S K r t v) := by
  have hst : 0 < Real.sqrt t := Real.sqrt_pos.mpr ht
  have hw : v * Real.sqrt t ≠ 0 := by positivity
  have hd1w : d1 S K r t v * (v * Real.sqrt t) = Real.log (S / K) + (r + v ^ 2 / 2) * t := by
    unfold d1
    field_simp
    ring
  have hsq : Real.sqrt t ^ 2 = t := Real.sq_sqrt ht.le
  have hdiff : d1 S K r t v ^ 2 - d2 S K r t v ^ 2 =
      2 * (Real.log (S / K) + r * t) := by
    unfold d2
    have hvt : (v * Real.sqrt t) ^ 2 = v ^ 2 * t := by
      rw [mul_pow, hsq]
    nlinarith [hd1w, hvt]
  unfold normPdf
  rw [show -(d1 S K r t v ^ 2) / 2 =
      -(d2 S K r t v ^ 2) / 2 + -(Real.log (S / K) + r * t) by linarith]
  rw [show -(Real.log (S / K) + r * t) = -Real.log (S / K) + -r * t by ring]
  rw [Real.exp_add, Real.exp_add, Real.exp_neg, Real.exp_log (div_pos hS hK)]
  have hexp : Real.exp (-(d2 S K r t v ^ 2) / 2) > 0 := Real.exp_pos _
  field_simp
  ring

/-! ### Monotonicity of the call price (delta, vega, theta signs) -/

lemma callPriceRaw_hasDerivAt_S (S K r t v : ℝ) (hS : 0 < S) (hK : 0 < K)
    (ht : 0 < t) (hv : 0 < v) :
    HasDerivAt (fun x => callPriceRaw x K r t v) (normCdf (d1 S K r t v)) S := by
  have hSK : S / K ≠ 0 := by positivity
  have hd1 : HasDerivAt (fun x => d1 x K r t v)
      ((S / K)⁻¹ * (1 / K) / (v * Real.sqrt t)) S := by
    have h0 : HasDerivAt (fun x : ℝ => x / K) (1 / K) S := by
      simpa using (hasDerivAt_id S).div_const K
    have h1 : HasDerivAt (fun x : ℝ => Real.log (x / K)) ((S / K)⁻¹ * (1 / K)) S :=
      (Real.hasDerivAt_log hSK).comp S h0
    exact (h1.add_const ((r + v ^ 2 / 2) * t)).div_const (v * Real.sqrt t)
  have hd2 : HasDerivAt (fun x => d2 x K r t v)
      ((S / K)⁻¹ * (1 / K) / (v * Real.sqrt t)) S := hd1.sub_const (v * Real.sqrt t)
  have hterm1 : HasDerivAt (fun x => normCdf (d1 x K r t v) * x)
      (normPdf (d1 S K r t v) * ((S / K)⁻¹ * (1 / K) / (v * Real.sqrt t)) * S +
        normCdf (d1 S K r t v) * 1) S :=
    ((normCdf_hasDerivAt (d1 S K r t v)).comp S hd1).mul (hasDerivAt_id S)
  have hterm2 : HasDerivAt (fun x => normCdf (d2 x K r t v) * K * Real.exp (-r * t))
      (normPdf (d2 S K r t v) * ((S / K)⁻¹ * (1 / K) / (v * Real.sqrt t)) * K *
        Real.exp (-r * t)) S :=
    (((normCdf_hasDerivAt (d2 S K r t v)).comp S hd2).mul_const K).mul_const (Real.exp (-r * t))
  have hsum := hterm1.sub hterm2
  have hkey := bs_identity S K r t v hS hK ht hv
  have hval : normPdf (d1 S K r t v) * ((S / K)⁻¹ * (1 / K) / (v * Real.sqrt t)) * S +
      normCdf (d1 S K r t v) * 1 -
      normPdf (d2 S K r t v) * ((S / K)⁻¹ * (1 / K) / (v * Real.sqrt t)) * K *
        Real.exp (-r * t) = normCdf (d1 S K r t v) := by
    linear_combination (-((S / K)⁻¹ * (1 / K) / (v * Real.sqrt t))) * hkey
  exact hval ▸ hsum

lemma callPriceRaw_monotoneOn_S (K r t v : ℝ) (hK : 0 < K) (ht : 0 < t) (hv : 0 < v) :
    MonotoneOn (fun x => callPriceRaw x K r t v) (Ioi (0 : ℝ)) := by
  have hderiv : ∀ x ∈ interior (Ioi (0 : ℝ)),
      HasDerivWithinAt (fun x => callPriceRaw x K r t v)
        ((fun x => normCdf (d1 x K r t v)) x) (interior (Ioi (0 : ℝ))) x := by
    intro x hx
    rw [interior_Ioi] at hx
    exact (callPriceRaw_hasDerivAt_S x K r t v hx hK ht hv).hasDerivWithinAt
  apply monotoneOn_of_hasDerivWithinAt_nonneg (convex_Ioi 0) ?_ hderiv
  · intro x hx
    exact normCdf_nonneg _
  · intro x hx
    exact (callPriceRaw_hasDerivAt_S x K r t v hx hK ht hv).continuousAt.continuousWithinAt

lemma callPriceRaw_hasDerivAt_v (S K r t v : ℝ) (hS : 0 < S) (hK : 0 < K)
    (ht : 0 < t) (hv : 0 < v) :
    HasDerivAt (fun w => callPriceRaw S K r t w)
      (S * normPdf (d1 S K r t v) * Real.sqrt t) v := by
  have hst : 0 < Real.sqrt t := Real.sqrt_pos.mpr ht
  have hne : v * Real.sqrt t ≠ 0 := by positivity
  have hpow : HasDerivAt (fun w : ℝ => w ^ 2) (2 * v) v := by
    simpa using hasDerivAt_pow 2 v
  have hnum : HasDerivAt (fun w : ℝ => Real.log (S / K) + (r + w ^ 2 / 2) * t)
      (2 * v / 2 * t) v :=
    (((hpow.div_const 2).const_add r).mul_const t).const_add (Real.log (S / K))
  have hden : HasDerivAt (fun w : ℝ => w * Real.sqrt t) (1 * Real.sqrt t) v :=
    (hasDerivAt_id v).mul_const (Real.sqrt t)
  have hd1 : HasDerivAt (fun w => d1 S K r t w)
      ((2 * v / 2 * t * (v * Real.sqrt t) -
        (Real.log (S / K) + (r + v ^ 2 / 2) * t) * (1 * Real.sqrt t)) /
        (v * Real.sqrt t) ^ 2) v :=
    hnum.div hden hne
  have hd2 : HasDerivAt (fun w => d2 S K r t w)
      ((2 * v / 2 * t * (v * Real.sqrt t) -
        (Real.log (S / K) + (r + v ^ 2 / 2) * t) * (1 * Real.sqrt t)) /
        (v * Real.sqrt t) ^ 2 - 1 * Real.sqrt t) v :=
    hd1.sub ((hasDerivAt_id v).mul_const (Real.sqrt t))
  have hterm1 : HasDerivAt (fun w => normCdf (d1 S K r t w) * S)
      (normPdf (d1 S K r t v) *
        ((2 * v / 2 * t * (v * Real.sqrt t) -
          (Real.log (S / K) + (r + v ^ 2 / 2) * t) * (1 * Real.sqrt t)) /
          (v * Real.sqrt t) ^ 2) * S) v :=
    ((normCdf_hasDerivAt (d1 S K r t v)).comp v hd1).mul_const S
  have hterm2 : HasDerivAt (fun w => normCdf (d2 S K r t w) * K * Real.exp (-r * t))
      (normPdf (d2 S K r t v) *
        ((2 * v / 2 * t * (v * Real.sqrt t) -
          (Real.log (S / K) + (r + v ^ 2 / 2) * t) * (1 * Real.sqrt t)) /
          (v * Real.sqrt t) ^ 2 - 1 * Real.sqrt t) * K * Real.exp (-r * t)) v :=
    (((normCdf_hasDerivAt (d2 S K r t v)).comp v hd2).mul_const K).mul_const (Real.exp (-r * t))
  have hsum := hterm1.sub hterm2
  have hkey := bs_identity S K r t v hS hK ht hv
  have hval : normPdf (d1 S K r t v) *
        ((2 * v / 2 * t * (v * Real.sqrt t) -
          (Real.log (S / K) + (r + v ^ 2 / 2) * t) * (1 * Real.sqrt t)) /
          (v * Real.sqrt t) ^ 2) * S -
      normPdf (d2 S K r t v) *
        ((2 * v / 2 * t * (v * Real.sqrt t) -
          (Real.log (S / K) + (r + v ^ 2 / 2) * t) * (1 * Real.sqrt t)) /
          (v * Real.sqrt t) ^ 2 - 1 * Real.sqrt t) * K * Real.exp (-r * t) =
      S * normPdf (d1 S K r t v) * Real.sqrt t := by
    linear_combination
      (-((2 * v / 2 * t * (v * Real.sqrt t) -
        (Real.log (S / K) + (r + v ^ 2 / 2) * t) * (1 * Real.sqrt t)) /
        (v * Real.sqrt t) ^ 2 - 1 * Real.sqrt t)) * hkey
  exact hval ▸ hsum

lemma callPriceRaw_monotoneOn_v (S K r t : ℝ) (hS : 0 < S) (hK : 0 < K) (ht : 0 < t) :
    MonotoneOn (fun w => callPriceRaw S K r t w) (Ioi (0 : ℝ)) := by
  have hderiv : ∀ w ∈ interior (Ioi (0 : ℝ)),
      HasDerivWithinAt (fun w => callPriceRaw S K r t w)
        ((fun w => S * normPdf (d1 S K r t w) * Real.sqrt t) w) (interior (Ioi (0 : ℝ))) w := by
    intro w hw
    rw [interior_Ioi] at hw
    exact (callPriceRaw_hasDerivAt_v S K r t w hS hK ht hw).hasDerivWithinAt
  apply monotoneOn_of_hasDerivWithinAt_nonneg (convex_Ioi 0) ?_ hderiv
  · intro w hw
    exact mul_nonneg (mul_nonneg hS.le (normPdf_nonneg _)) (Real.sqrt_nonneg t)
  · intro w hw
    exact (callPriceRaw_hasDerivAt_v S K r t w hS hK ht hw).continuousAt.continuousWithinAt

lemma callPriceRaw_hasDerivAt_t (S K r t v : ℝ) (hS : 0 < S) (hK : 0 < K)
    (ht : 0 < t) (hv : 0 < v) :
    HasDerivAt (fun u => callPriceRaw S K r u v)
      (S * normPdf (d1 S K r t v) * (v * (1 / (2 * Real.sqrt t))) +
        r * K * Real.exp (-r * t) * normCdf (d2 S K r t v)) t := by
  have hst : 0 < Real.sqrt t := Real.sqrt_pos.mpr ht
  have hne : v * Real.sqrt t ≠ 0 := by positivity
  have hnum : HasDerivAt (fun u : ℝ => Real.log (S / K) + (r + v ^ 2 / 2) * u)
      ((r + v ^ 2 / 2) * 1) t :=
    (((hasDerivAt_id t).const_mul (r + v ^ 2 / 2))).const_add (Real.log (S / K))
  have hsqrt : HasDerivAt (fun u : ℝ => Real.sqrt u) (1 / (2 * Real.sqrt t)) t :=
    Real.hasDerivAt_sqrt (ne_of_gt ht)
  have hden : HasDerivAt (fun u : ℝ => v * Real.sqrt u) (v * (1 / (2 * Real.sqrt t))) t :=
    hsqrt.const_mul v
  have hd1 : HasDerivAt (fun u => d1 S K r u v)
      (((r + v ^ 2 / 2) * 1 * (v * Real.sqrt t) -
        (Real.log (S / K) + (r + v ^ 2 / 2) * t) * (v * (1 / (2 * Real.sqrt t)))) /
        (v * Real.sqrt t) ^ 2) t :=
    hnum.div hden hne
  have hd2 : HasDerivAt (fun u => d2 S K r u v)
      (((r + v ^ 2 / 2) * 1 * (v * Real.sqrt t) -
        (Real.log (S / K) + (r + v ^ 2 / 2) * t) * (v * (1 / (2 * Real.sqrt t)))) /
        (v * Real.sqrt t) ^ 2 - v * (1 / (2 * Real.sqrt t))) t :=
    hd1.sub (hsqrt.const_mul v)
  have hexp : HasDerivAt (fun u : ℝ => Real.exp (-r * u)) (Real.exp (-r * t) * (-r * 1)) t :=
    ((hasDerivAt_id t).const_mul (-r)).exp
  have hterm1 : HasDerivAt (fun u => normCdf (d1 S K r u v) * S)
      (normPdf (d1 S K r t v) *
        (((r + v ^ 2 / 2) * 1 * (v * Real.sqrt t) -
          (Real.log (S / K) + (r + v ^ 2 / 2) * t) * (v * (1 / (2 * Real.sqrt t)))) /
          (v * Real.sqrt t) ^ 2) * S) t :=
    ((normCdf_hasDerivAt (d1 S K r t v)).comp t hd1).mul_const S
  have hterm2 : HasDerivAt (fun u => normCdf (d2 S K r u v) * K * Real.exp (-r * u))
      (normPdf (d2 S K r t v) *
        (((r + v ^ 2 / 2) * 1 * (v * Real.sqrt t) -
          (Real.log (S / K) + (r + v ^ 2 / 2) * t) * (v * (1 / (2 * Real.sqrt t)))) /
          (v * Real.sqrt t) ^ 2 - v * (1 / (2 * Real.sqrt t))) * K * Real.exp (-r * t) +
        normCdf (d2 S K r t v) * K * (Real.exp (-r * t) * (-r * 1))) t :=
    (((normCdf_hasDerivAt (d2 S K r t v)).comp t hd2).mul_const K).mul hexp
  have hsum := hterm1.sub hterm2
  have hkey := bs_identity S K r t v hS hK ht hv
  have hval : normPdf (d1 S K r t v) *
        (((r + v ^ 2 / 2) * 1 * (v * Real.sqrt t) -
          (Real.log (S / K) + (r + v ^ 2 / 2) * t) * (v * (1 / (2 * Real.sqrt t)))) /
          (v * Real.sqrt t) ^ 2) * S -
      (normPdf (d2 S K r t v) *
        (((r + v ^ 2 / 2) * 1 * (v * Real.sqrt t) -
          (Real.log (S / K) + (r + v ^ 2 / 2) * t) * (v * (1 / (2 * Real.sqrt t)))) /
          (v * Real.sqrt t) ^ 2 - v * (1 / (2 * Real.sqrt t))) * K * Real.exp (-r * t) +
        normCdf (d2 S K r t v) * K * (Real.exp (-r * t) * (-r * 1))) =
      S * normPdf (d1 S K r t v) * (v * (1 / (2 * Real.sqrt t))) +
        r * K * Real.exp (-r * t) * normCdf (d2 S K r t v) := by
    linear_combination
      (-(((r + v ^ 2 / 2) * 1 * (v * Real.sqrt t) -
        (Real.log (S / K) + (r + v ^ 2 / 2) * t) * (v * (1 / (2 * Real.sqrt t)))) /
        (v * Real.sqrt t) ^ 2 - v * (1 / (2 * Real.sqrt t)))) * hkey
  exact hval ▸ hsum

lemma callPriceRaw_monotoneOn_t (S K r v : ℝ) (hS : 0 < S) (hK : 0 < K)
    (hr : 0 ≤ r) (hv : 0 < v) :
    MonotoneOn (fun u => callPriceRaw S K r u v) (Ioi (0 : ℝ)) := by
  have hderiv : ∀ u ∈ interior (Ioi (0 : ℝ)),
      HasDerivWithinAt (fun u => callPriceRaw S K r u v)
        ((fun u => S * normPdf (d1 S K r u v) * (v * (1 / (2 * Real.sqrt u))) +
          r * K * Real.exp (-r * u) * normCdf (d2 S K r u v)) u)
        (interior (Ioi (0 : ℝ))) u := by
    intro u hu
    rw [interior_Ioi] at hu
    exact (callPriceRaw_hasDerivAt_t S K r u v hS hK hu hv).hasDerivWithinAt
  apply monotoneOn_of_hasDerivWithinAt_nonneg (convex_Ioi 0) ?_ hderiv
  · intro u hu
    rw [interior_Ioi] at hu
    have h1 : 0 ≤ S * normPdf (d1 S K r u v) * (v * (1 / (2 * Real.sqrt u))) := by
      have : 0 < Real.sqrt u := Real.sqrt_pos.mpr hu
      have hfrac : 0 ≤ v * (1 / (2 * Real.sqrt u)) := by positivity
      exact mul_nonneg (mul_nonneg hS.le (normPdf_nonneg _)) hfrac
    have h2 : 0 ≤ r * K * Real.exp (-r * u) * normCdf (d2 S K r u v) := by
      have he : 0 ≤ r * K * Real.exp (-r * u) := by positivity
      exact mul_nonneg he (normCdf_nonneg _)
    linarith
  · intro u hu
    exact (callPriceRaw_hasDerivAt_t S K r u v hS hK hu hv).continuousAt.continuousWithinAt

lemma blackScholes_call_eq (S K r t v : ℝ) :
    BlackScholes S K r t v "Call" = some (round2 (callPriceRaw S K r t v)) := by
  unfold BlackScholes
  rw [if_pos rfl]

/-! ### Indexing the cross-product grid -/

lemma flatMap_map_length {α β γ : Type} (xs : List α) (ys : List β) (f : α → β → γ) :
    (xs.flatMap (fun a => ys.map (f a))).length = xs.length * ys.length := by
  induction xs with
  | nil => simp
  | cons a xs ih =>
    simp only [List.flatMap_cons, List.length_append, List.length_map, ih, List.length_cons]
    ring

lemma flatMap_map_getElem {α β γ : Type} (xs : List α) (ys : List β) (f : α → β → γ)
    (i j : ℕ) (hi : i < xs.length) (hj : j < ys.length)
    (h : i * ys.length + j < (xs.flatMap (fun a => ys.map (f a))).length) :
    (xs.flatMap (fun a => ys.map (f a)))[i * ys.length + j] = f xs[i] ys[j] := by
  induction xs generalizing i with
  | nil => simp at hi
  | cons a xs ih =>
    cases i with
    | zero =>
      simp only [List.flatMap_cons, Nat.zero_mul, Nat.zero_add]
      rw [List.getElem_append_left (by simpa using hj)]
      simp
    | succ i =>
      have hle : (ys.map (f a)).length ≤ (i + 1) * ys.length + j := by
        simp only [List.length_map]
        nlinarith
      have hi2 : i < xs.length := by simpa using hi
      have h2 : i * ys.length + j < (xs.flatMap (fun b => ys.map (f b))).length := by
        rw [flatMap_map_length]
        simp only [List.length_cons] at hi
        nlinarith
      simp only [List.flatMap_cons]
      rw [List.getElem_append_right hle]
      have hidx : (i + 1) * ys.length + j - (ys.map (f a)).length = i * ys.length + j := by
        simp only [List.length_map]
        ring_nf
        omega
      simp only [hidx]
      exact ih i hi2 h2

lemma ranges_length (x : ℤ) : (ranges x).length = 9 := by
  rw [ranges, List.length_map, List.length_range]


lemma ranges_getElem (x : ℤ) (i : ℕ) (h : i < (ranges x).length) :
    (ranges x)[i] = x - 4 + i := by
  simp only [ranges, List.getElem_map, List.getElem_range]

lemma df_length (S2anchor Kanchor : ℤ) : (df S2anchor Kanchor).length = 81 := by
  rw [df, flatMap_map_length, ranges_length, ranges_length]

lemma df_getElem (S2anchor Kanchor : ℤ) (i j : ℕ) (hi : i < 9) (hj : j < 9)
    (h : i * (ranges Kanchor).length + j < (df S2anchor Kanchor).length) :
    (df S2anchor Kanchor)[i * (ranges Kanchor).length + j] =
      (S2anchor - 4 + i, Kanchor - 4 + j) := by
  unfold df
  rw [flatMap_map_getElem (ranges S2anchor) (ranges Kanchor) (fun a b => (a, b)) i j
    (by rw [ranges_length]; omega) (by rw [ranges_length]; omega)
    (by rw [df] at h; exact h)]
  rw [ranges_getElem, ranges_getElem]

/-! ### Claim theorems -/

/-- C5: for every integer anchor value `x`, the range generator returns an
ordered sequence of exactly 9 integer values spanning `x - 4` through `x + 4`
inclusive, evenly spaced with step 1 (strictly increasing). -/
theorem ranges_spec (x : ℤ) :
    ranges x = [x - 4, x - 3, x - 2, x - 1, x, x + 1, x + 2, x + 3, x + 4] ∧
    (ranges x).length = 9 ∧ List.Sorted (· < ·) (ranges x) ∧
    (ranges x).head? = some (x - 4) ∧ (ranges x).getLast? = some (x + 4) := by
  have hlist : ranges x = [x - 4, x - 3, x - 2, x - 1, x, x + 1, x + 2, x + 3, x + 4] := by
    simp [ranges, List.range_succ]
    omega
  refine ⟨hlist, ?_, ?_, ?_, ?_⟩
  · rw [hlist]; rfl
  · rw [hlist]
    simp [List.sorted_cons]
    omega
  · rw [hlist]; rfl
  · rw [hlist]; rfl

/-- C10: for every numerically valid input and every option-type string other
than `"Call"` or `"Put"`, the pricer returns `None`: the `Price` variable is
never assigned, the resulting `UnboundLocalError` is caught by the bare
`except`, a console message is printed, and the function falls through to an
implicit `None` return. -/
theorem blackScholes_unknown_type_returns_none (S K r t v : ℝ) (ty : String)
    (_hS : 0 < S) (_hK : 0 < K) (_ht : 0 < t) (_hv : 0 < v)
    (hc : ty ≠ "Call") (hp : ty ≠ "Put") :
    BlackScholes S K r t v ty = none := by
  unfold BlackScholes
  rw [if_neg hc, if_neg hp]

theorem blackScholes_unknown_type_returns_none_witness :
    BlackScholes 100 95 (3 / 100) (60 / 365) (1 / 5) "Straddle" = none :=
  blackScholes_unknown_type_returns_none 100 95 (3 / 100) (60 / 365) (1 / 5) "Straddle"
    (by norm_num) (by norm_num) (by norm_num) (by norm_num) (by decide) (by decide)

/-- C3: contrary to the claim, the pricer never fails for option kinds
`"Call"` and `"Put"`: for every input — including the degenerate `t = 0`,
`v = 0`, `S ≤ 0` or `K ≤ 0` — it returns a value (`some` price).  The Python
source contains no `raise` and no `InvalidParameters` condition; with `t = 0`
or `v = 0` the float division in `d1` yields `±inf`/`NaN` without raising
(the numerator is a `np.float64`), `norm.cdf` maps these to `0`, `1` or
`NaN`, and the rounded result is returned to the caller. -/
theorem blackScholes_never_fails_for_call_put (S K r t v : ℝ) :
    (∃ p, BlackScholes S K r t v "Call" = some p) ∧
    (∃ p, BlackScholes S K r t v "Put" = some p) :=
  ⟨⟨_, rfl⟩, ⟨_, rfl⟩⟩

/-- C1: for valid parameters the pricer returns exactly the Black-Scholes
price of the spec (section 4.1): `Phi(d1)*S - Phi(d2)*K*e^(-r*t)` for a call
and `Phi(-d2)*K*e^(-r*t) - Phi(-d1)*S` for a put, with
`d1 = (ln(S/K) + (r + v^2/2)*t)/(v*sqrt(t))`, `d2 = d1 - v*sqrt(t)`, rounded
to 2 decimal places. -/
theorem blackScholes_matches_spec (S K r t v : ℝ)
    (_hS : 0 < S) (_hK : 0 < K) (_hr : 0 ≤ r) (_ht : 0 < t) (_hv : 0 < v) :
    BlackScholes S K r t v "Call" = some (specCallPrice S K r t v) ∧
    BlackScholes S K r t v "Put" = some (specPutPrice S K r t v) := by
  constructor <;>
    simp [BlackScholes, callPriceRaw, putPriceRaw, specCallPrice, specPutPrice,
      specD1, specD2, d1, d2, neg_mul]

theorem blackScholes_matches_spec_witness :
    BlackScholes 100 95 (3 / 100) (60 / 365) (1 / 5) "Call" =
      some (specCallPrice 100 95 (3 / 100) (60 / 365) (1 / 5)) ∧
    BlackScholes 100 95 (3 / 100) (60 / 365) (1 / 5) "Put" =
      some (specPutPrice 100 95 (3 / 100) (60 / 365) (1 / 5)) :=
  blackScholes_matches_spec 100 95 (3 / 100) (60 / 365) (1 / 5)
    (by norm_num) (by norm_num) (by norm_num) (by norm_num) (by norm_num)

/-- C2: for every pair of entry/exit snapshots (same strike and option kind)
on which the pricer succeeds, the payoff engine returns
`round(net * 100, 2)` with `net = exitPrice - entryPrice` for a `"Long"`
position and `net = entryPrice - exitPrice` for a `"Short"` position, where
`entryPrice` and `exitPrice` are the pricer's results on the T0 and T1
snapshots. -/
theorem calculate_payoff_spec (S1 K r1 t1 v1 S2 r2 t2 v2 : ℝ) (opt pos : String)
    {entry exit2 : ℝ}
    (hE : BlackScholes S1 K r1 t1 v1 opt = some entry)
    (hX : BlackScholes S2 K r2 t2 v2 opt = some exit2) :
    (pos = "Long" →
      calculate_payoff S1 K r1 t1 v1 S2 r2 t2 v2 opt pos =
        some (round2 ((exit2 - entry) * 100))) ∧
    (pos = "Short" →
      calculate_payoff S1 K r1 t1 v1 S2 r2 t2 v2 opt pos =
        some (round2 ((entry - exit2) * 100))) := by
  unfold calculate_payoff
  rw [hE, hX]
  constructor
  · intro h
    rw [h]
    simp
  · intro h
    rw [h]
    simp

theorem calculate_payoff_spec_witness :
    calculate_payoff 100 95 (3 / 100) (60 / 365) (1 / 5) 101 (3 / 100) (40 / 365) (1 / 5)
        "Call" "Long" =
      some (round2 ((round2 (callPriceRaw 101 95 (3 / 100) (40 / 365) (1 / 5)) -
        round2 (callPriceRaw 100 95 (3 / 100) (60 / 365) (1 / 5))) * 100)) :=
  (calculate_payoff_spec 100 95 (3 / 100) (60 / 365) (1 / 5) 101 (3 / 100) (40 / 365) (1 / 5)
    "Call" "Long" rfl rfl).1 rfl

/-- C6: for every pair of entry/exit snapshots on which the pricer succeeds,
the payoff engine's result for a `"Long"` position is the negation of its
result for a `"Short"` position on the same snapshots. -/
theorem payoff_long_eq_neg_short (S1 K r1 t1 v1 S2 r2 t2 v2 : ℝ) (opt : String)
    {entry exit2 : ℝ}
    (hE : BlackScholes S1 K r1 t1 v1 opt = some entry)
    (hX : BlackScholes S2 K r2 t2 v2 opt = some exit2) :
    ∃ p, calculate_payoff S1 K r1 t1 v1 S2 r2 t2 v2 opt "Long" = some p ∧
      calculate_payoff S1 K r1 t1 v1 S2 r2 t2 v2 opt "Short" = some (-p) := by
  refine ⟨round2 ((exit2 - entry) * 100), ?_, ?_⟩
  · unfold calculate_payoff
    rw [hE, hX]
    simp
  · unfold calculate_payoff
    rw [hE, hX]
    simp only [Option.some.injEq]
    rw [if_neg (by decide : ("Short" : String) ≠ "Long"),
      show (entry - exit2) * 100 = -((exit2 - entry) * 100) by ring, round2_neg]

theorem payoff_long_eq_neg_short_witness :
    ∃ p, calculate_payoff 100 95 (3 / 100) (60 / 365) (1 / 5) 101 (3 / 100) (40 / 365) (1 / 5)
        "Call" "Long" = some p ∧
      calculate_payoff 100 95 (3 / 100) (60 / 365) (1 / 5) 101 (3 / 100) (40 / 365) (1 / 5)
        "Call" "Short" = some (-p) :=
  payoff_long_eq_neg_short 100 95 (3 / 100) (60 / 365) (1 / 5) 101 (3 / 100) (40 / 365) (1 / 5)
    "Call" rfl rfl

/-- C4: the grid is a dense rectangular table of exactly `9 * 9 = 81` cells;
the cell indexed `(i, j)` (row-major position `9 * i + j`) carries spot
`S2anchor - 4 + i` and strike `Kanchor - 4 + j` — so both axes are strictly
ascending and centered on their anchors `± 4` — and its value is the payoff
engine's result with the cell's strike substituted for `K` and the cell's
spot substituted for the exit spot `S2`, all other T0/T1 parameters held
fixed.  No cell is missing. -/
theorem grid_spec (S1 : ℝ) (Kanchor : ℤ) (r1 t1 v1 : ℝ) (S2anchor : ℤ)
    (r2 t2 v2 : ℝ) (ty pos : String) :
    (dfPnL S1 Kanchor r1 t1 v1 S2anchor r2 t2 v2 ty pos).length = 81 ∧
    ∀ i j : ℕ, i < 9 → j < 9 →
      ∀ h : 9 * i + j < (dfPnL S1 Kanchor r1 t1 v1 S2anchor r2 t2 v2 ty pos).length,
      (dfPnL S1 Kanchor r1 t1 v1 S2anchor r2 t2 v2 ty pos).get ⟨9 * i + j, h⟩ =
        (S2anchor - 4 + i, Kanchor - 4 + j,
          calculate_payoff S1 ((Kanchor - 4 + j : ℤ) : ℝ) r1 t1 v1
            ((S2anchor - 4 + i : ℤ) : ℝ) r2 t2 v2 ty pos) := by
  have hlen : (dfPnL S1 Kanchor r1 t1 v1 S2anchor r2 t2 v2 ty pos).length = 81 := by
    simp [dfPnL, df_length]
  refine ⟨hlen, ?_⟩
  intro i j hi hj h
  have hidx : 9 * i + j = i * (ranges Kanchor).length + j := by
    rw [ranges_length]; ring
  have hb : i * (ranges Kanchor).length + j < (df S2anchor Kanchor).length := by
    rw [df_length, ranges_length]; omega
  have hcell := df_getElem S2anchor Kanchor i j hi hj hb
  rw [List.get_eq_getElem]
  simp only [dfPnL, List.getElem_map, hidx, hcell]

theorem grid_spec_witness :
    (dfPnL 100 95 (3 / 100) (60 / 365) (1 / 5) 101 (3 / 100) (40 / 365) (1 / 5)
      "Call" "Long").length = 81 ∧
    (dfPnL 100 95 (3 / 100) (60 / 365) (1 / 5) 101 (3 / 100) (40 / 365) (1 / 5)
      "Call" "Long").get ⟨9 * 2 + 3, by rw [(grid_spec 100 95 (3 / 100) (60 / 365) (1 / 5) 101
        (3 / 100) (40 / 365) (1 / 5) "Call" "Long").1]; omega⟩ =
      ((101 - 4 + ((2 : ℕ) : ℤ) : ℤ), (95 - 4 + ((3 : ℕ) : ℤ) : ℤ),
        calculate_payoff 100 ((95 - 4 + ((3 : ℕ) : ℤ) : ℤ) : ℝ) (3 / 100) (60 / 365) (1 / 5)
          ((101 - 4 + ((2 : ℕ) : ℤ) : ℤ) : ℝ) (3 / 100) (40 / 365) (1 / 5) "Call" "Long") :=
  ⟨(grid_spec 100 95 (3 / 100) (60 / 365) (1 / 5) 101 (3 / 100) (40 / 365) (1 / 5)
      "Call" "Long").1,
    (grid_spec 100 95 (3 / 100) (60 / 365) (1 / 5) 101 (3 / 100) (40 / 365) (1 / 5)
      "Call" "Long").2 2 3 (by omega) (by omega) _⟩

/-- C9: when the pricer produces no value, neither the payoff engine nor the
grid builder catches or masks it.  First part: if either pricer evaluation in
`calculate_payoff` yields `none`, the payoff is `none` (the `TypeError` from
`None` arithmetic propagates — there is no `try` in `calculate_payoff`).
Second part: when the pricer fails (its only failure mode: an option string
other than `"Call"`/`"Put"`), every cell of the grid is `none` — no partial
result and no placeholder value anywhere in the grid. -/
theorem pricer_failure_propagates (S1 K r1 t1 v1 S2 r2 t2 v2 : ℝ)
    (Kanchor S2anchor : ℤ) (opt pos : String) :
    ((BlackScholes S1 K r1 t1 v1 opt = none ∨ BlackScholes S2 K r2 t2 v2 opt = none) →
      calculate_payoff S1 K r1 t1 v1 S2 r2 t2 v2 opt pos = none) ∧
    (opt ≠ "Call" → opt ≠ "Put" →
      ∀ c ∈ dfPnL S1 Kanchor r1 t1 v1 S2anchor r2 t2 v2 opt pos, c.2.2 = none) := by
  constructor
  · intro h
    unfold calculate_payoff
    rcases h with h | h
    · rw [h]
    · rw [h]
      cases BlackScholes S1 K r1 t1 v1 opt <;> rfl
  · intro hc hp c hmem
    unfold dfPnL at hmem
    rw [List.mem_map] at hmem
    obtain ⟨cell, _, rfl⟩ := hmem
    have hbs : ∀ S K' t' v' r' : ℝ, BlackScholes S K' r' t' v' opt = none := by
      intro S K' t' v' r'
      unfold BlackScholes
      rw [if_neg hc, if_neg hp]
    unfold calculate_payoff
    rw [hbs, hbs]

theorem pricer_failure_propagates_witness :
    calculate_payoff 100 95 (3 / 100) (60 / 365) (1 / 5) 101 (3 / 100) (40 / 365) (1 / 5)
      "Straddles" "Long" = none ∧
    ∀ c ∈ dfPnL 100 95 (3 / 100) (60 / 365) (1 / 5) 101 (3 / 100) (40 / 365) (1 / 5)
      "Straddles" "Long", c.2.2 = none :=
  ⟨(pricer_failure_propagates 100 95 (3 / 100) (60 / 365) (1 / 5) 101 (3 / 100) (40 / 365)
      (1 / 5) 95 101 "Straddles" "Long").1 (Or.inl rfl),
    (pricer_failure_propagates 100 95 (3 / 100) (60 / 365) (1 / 5) 101 (3 / 100) (40 / 365)
      (1 / 5) 95 101 "Straddles" "Long").2 (by decide) (by decide)⟩

/-- C7: put-call parity.  For all valid parameters, the call price minus the
put price returned by the pricer equals `S - K * e^(-r*t)` to within the
rounding tolerance of `0.01` (each price is individually rounded to the
nearest cent, contributing at most `0.005` of error). -/
theorem put_call_parity (S K r t v : ℝ)
    (_hS : 0 < S) (_hK : 0 < K) (_hr : 0 ≤ r) (_ht : 0 < t) (_hv : 0 < v)
    {c p : ℝ}
    (hc : BlackScholes S K r t v "Call" = some c)
    (hp : BlackScholes S K r t v "Put" = some p) :
    |c - p - (S - K * Real.exp (-r * t))| ≤ 1 / 100 := by
  have hc2 : c = round2 (callPriceRaw S K r t v) := by
    have h := hc
    unfold BlackScholes at h
    rw [if_pos rfl] at h
    exact (Option.some.injEq _ _ ▸ h).symm
  have hp2 : p = round2 (putPriceRaw S K r t v) := by
    have h := hp
    unfold BlackScholes at h
    rw [if_neg (by decide : ("Put" : String) ≠ "Call"), if_pos rfl] at h
    exact (Option.some.injEq _ _ ▸ h).symm
  set C := callPriceRaw S K r t v with hCdef
  set P := putPriceRaw S K r t v with hPdef
  have hCP : C - P = S - K * Real.exp (-r * t) := by
    rw [hCdef, hPdef, callPriceRaw, putPriceRaw,
      normCdf_neg (d1 S K r t v), normCdf_neg (d2 S K r t v)]
    ring
  have h1 := abs_round2_sub C
  have h2 := abs_round2_sub P
  rw [hc2, hp2]
  have hsplit : round2 C - round2 P - (S - K * Real.exp (-r * t)) =
      (round2 C - C) - (round2 P - P) := by
    rw [← hCP]
    ring
  rw [hsplit]
  have htri : |(round2 C - C) - (round2 P - P)| ≤ |round2 C - C| + |round2 P - P| := by
    rw [sub_eq_add_neg]
    exact (abs_add _ _).trans (by rw [abs_neg])
  linarith

theorem put_call_parity_witness :
    |round2 (callPriceRaw 100 95 (3 / 100) (60 / 365) (1 / 5)) -
      round2 (putPriceRaw 100 95 (3 / 100) (60 / 365) (1 / 5)) -
      (100 - 95 * Real.exp (-(3 / 100) * (60 / 365)))| ≤ 1 / 100 :=
  put_call_parity 100 95 (3 / 100) (60 / 365) (1 / 5)
    (by norm_num) (by norm_num) (by norm_num) (by norm_num) (by norm_num) rfl rfl

/-- C8: for all valid parameters with `r ≥ 0`, the call price returned by the
pricer is monotonically non-decreasing in the spot `S` (delta `= Phi(d1) ≥ 0`),
non-decreasing in the volatility `v` (vega `= S*pdf(d1)*sqrt(t) ≥ 0`), and
non-decreasing in the time-to-expiry `t`
(`S*pdf(d1)*v/(2*sqrt(t)) + r*K*e^(-r*t)*Phi(d2) ≥ 0`), all other parameters
held fixed; rounding to cents preserves monotonicity. -/
theorem call_price_monotone (S K r t v : ℝ)
    (hS : 0 < S) (hK : 0 < K) (hr : 0 ≤ r) (ht : 0 < t) (hv : 0 < v) :
    (∀ Sb pa pb, S ≤ Sb →
      BlackScholes S K r t v "Call" = some pa →
      BlackScholes Sb K r t v "Call" = some pb → pa ≤ pb) ∧
    (∀ vb pa pb, v ≤ vb →
      BlackScholes S K r t v "Call" = some pa →
      BlackScholes S K r t vb "Call" = some pb → pa ≤ pb) ∧
    (∀ tb pa pb, t ≤ tb →
      BlackScholes S K r t v "Call" = some pa →
      BlackScholes S K r tb v "Call" = some pb → pa ≤ pb) := by
  refine ⟨?_, ?_, ?_⟩
  · intro Sb pa pb hle ha hb
    rw [blackScholes_call_eq] at ha hb
    rw [← Option.some.inj ha, ← Option.some.inj hb]
    exact round2_mono (callPriceRaw_monotoneOn_S K r t v hK ht hv
      (mem_Ioi.mpr hS) (mem_Ioi.mpr (lt_of_lt_of_le hS hle)) hle)
  · intro vb pa pb hle ha hb
    rw [blackScholes_call_eq] at ha hb
    rw [← Option.some.inj ha, ← Option.some.inj hb]
    exact round2_mono (callPriceRaw_monotoneOn_v S K r t hS hK ht
      (mem_Ioi.mpr hv) (mem_Ioi.mpr (lt_of_lt_of_le hv hle)) hle)
  · intro tb pa pb hle ha hb
    rw [blackScholes_call_eq] at ha hb
    rw [← Option.some.inj ha, ← Option.some.inj hb]
    exact round2_mono (callPriceRaw_monotoneOn_t S K r v hS hK hr hv
      (mem_Ioi.mpr ht) (mem_Ioi.mpr (lt_of_lt_of_le ht hle)) hle)

theorem call_price_monotone_witness :
    round2 (callPriceRaw 100 95 (3 / 100) (60 / 365) (1 / 5)) ≤
      round2 (callPriceRaw 101 95 (3 / 100) (60 / 365) (1 / 5)) ∧
    round2 (callPriceRaw 100 95 (3 / 100) (60 / 365) (1 / 5)) ≤
      round2 (callPriceRaw 100 95 (3 / 100) (60 / 365) (3 / 10)) ∧
    round2 (callPriceRaw 100 95 (3 / 100) (60 / 365) (1 / 5)) ≤
      round2 (callPriceRaw 100 95 (3 / 100) (90 / 365) (1 / 5)) :=
  ⟨(call_price_monotone 100 95 (3 / 100) (60 / 365) (1 / 5) (by norm_num) (by norm_num)
      (by norm_num) (by norm_num) (by norm_num)).1 101
      (round2 (callPriceRaw 100 95 (3 / 100) (60 / 365) (1 / 5)))
      (round2 (callPriceRaw 101 95 (3 / 100) (60 / 365) (1 / 5)))
      (by norm_num) rfl rfl,
    (call_price_monotone 100 95 (3 / 100) (60 / 365) (1 / 5) (by norm_num) (by norm_num)
      (by norm_num) (by norm_num) (by norm_num)).2.1 (3 / 10)
      (round2 (callPriceRaw 100 95 (3 / 100) (60 / 365) (1 / 5)))
      (round2 (callPriceRaw 100 95 (3 / 100) (60 / 365) (3 / 10)))
      (by norm_num) rfl rfl,
    (call_price_monotone 100 95 (3 / 100) (60 / 365) (1 / 5) (by norm_num) (by norm_num)
      (by norm_num) (by norm_num) (by norm_num)).2.2 (90 / 365)
      (round2 (callPriceRaw 100 95 (3 / 100) (60 / 365) (1 / 5)))
      (round2 (callPriceRaw 100 95 (3 / 100) (90 / 365) (1 / 5)))
      (by norm_num) rfl rfl⟩

end OptionPricing
